import Mathlib

/-!
Verification of the Gomoku engine core (src/Gomoku.py): board model,
win detection, candidate generation, heuristic evaluation, minimax search
with alpha-beta pruning, and the move selector.

The board is embedded as a total function from integer coordinates to cell
values (0 = empty, 1 = human, 2 = engine); in-place mutation in the Python
source becomes explicit state passing, with each operation that mutates the
board returning the resulting board.
-/

namespace Gomoku

/-- Number of rows and columns on the game board. -/
def BOARD_DIMENSION : Nat := 10

/-- Number of consecutive pieces needed to win. -/
def SEQUENCE_LENGTH : Nat := 5

/-- Identifier for the human player. -/
def HUMAN : Nat := 1

/-- Identifier for the AI player. -/
def AI : Nat := 2

/-- A board maps integer coordinates to cell values (0, 1 or 2). -/
abbrev Board := Int → Int → Nat

/-- A move is a (row, column) coordinate pair. -/
abbrev Move := Int × Int

/-- Board with every cell empty, as built by Initialize_Board. -/
def Initialize_Board : Board := fun _ _ => 0

/-- MakeMove places a player's value at (row, col): the single-cell write. -/
def MakeMove (b : Board) (row col : Int) (player : Nat) : Board :=
  fun r c => if r = row ∧ c = col then player else b r c

/-- Bounds test 0 <= r < BOARD_DIMENSION and 0 <= c < BOARD_DIMENSION. -/
def inB (row col : Int) : Bool :=
  decide (0 ≤ row ∧ row < (BOARD_DIMENSION : Int) ∧ 0 ≤ col ∧ col < (BOARD_DIMENSION : Int))

/-- CheckValidMove: in bounds and the target cell is empty. -/
def CheckValidMove (b : Board) (row col : Int) : Bool :=
  inB row col && (b row col == 0)

/-- The four scan directions: horizontal, vertical, the two diagonals. -/
def directions : List (Int × Int) := [(1, 0), (0, 1), (1, 1), (1, -1)]

/-- Length of the longest prefix of consecutive indices i, i+1, ... passing
the test, capped by the fuel: the for-loop with break of the source. -/
def prefLen (good : Nat → Bool) : Nat → Nat → Nat
  | _, 0 => 0
  | i, fuel + 1 => if good i then 1 + prefLen good (i + 1) fuel else 0

/-- PatternCount: number of consecutive cells equal to the target starting at
(row, col) and stepping by (dr, dc), scanning at most SEQUENCE_LENGTH cells
and stopping at the first out-of-bounds or non-matching cell. -/
def PatternCount (b : Board) (row col dr dc : Int) (target : Nat) : Nat :=
  prefLen
    (fun i => inB (row + dr * i) (col + dc * i) && (b (row + dr * i) (col + dc * i) == target))
    0 SEQUENCE_LENGTH

/-- WinnerCheck: does the player own SEQUENCE_LENGTH consecutive cells starting
at some cell it owns, in one of the four directions? -/
def WinnerCheck (b : Board) (player : Nat) : Bool :=
  (List.range BOARD_DIMENSION).any fun (row : Nat) =>
    (List.range BOARD_DIMENSION).any fun (col : Nat) =>
      b row col == player && directions.any fun d =>
        PatternCount b row col d.1 d.2 player == SEQUENCE_LENGTH

/-- Offsets -radius, ..., radius used by the candidate generator. -/
def offsets (radius : Nat) : List Int :=
  (List.range (2 * radius + 1)).map fun (k : Nat) => ((k : Int) - (radius : Int))

/-- ValidMoveFinder: every empty in-bounds cell within Chebyshev distance
radius of an occupied cell, deduplicated (the source collects them in a set;
here insertion keeps the first occurrence). -/
def ValidMoveFinder (b : Board) (radius : Nat) : List Move :=
  (List.range BOARD_DIMENSION).foldl
    (fun moves (row : Nat) =>
      (List.range BOARD_DIMENSION).foldl
        (fun moves (col : Nat) =>
          if b row col ≠ 0 then
            (offsets radius).foldl
              (fun moves (dr : Int) =>
                (offsets radius).foldl
                  (fun moves (dc : Int) =>
                    if CheckValidMove b ((row : Int) + dr) ((col : Int) + dc) = true
                        ∧ ((row : Int) + dr, (col : Int) + dc) ∉ moves then
                      moves ++ [((row : Int) + dr, (col : Int) + dc)]
                    else moves)
                  moves)
              moves
          else moves)
        moves)
    []

/-- Board_Evaluate: the heuristic score for a player, summing the square of
each forward run of the player's value and subtracting the square of each
forward run of the opponent's value, over every cell and direction. -/
def Board_Evaluate (b : Board) (player : Nat) : Int :=
  let opponent := if player = AI then HUMAN else AI
  (List.range BOARD_DIMENSION).foldl
    (fun score (row : Nat) =>
      (List.range BOARD_DIMENSION).foldl
        (fun score (col : Nat) =>
          directions.foldl
            (fun score d =>
              if b row col = player then
                score + (PatternCount b row col d.1 d.2 player : Int) ^ 2
              else if b row col = opponent then
                score - (PatternCount b row col d.1 d.2 opponent : Int) ^ 2
              else score)
            score)
        score)
    0

/-- Scores extended with the two infinities used to seed the search
(math.inf in the source). -/
inductive XInt : Type where
  | negInf : XInt
  | fin : Int → XInt
  | posInf : XInt
deriving DecidableEq, Repr

/-- Boolean order test on extended scores: negInf below everything, posInf
above everything. -/
def XInt.ble : XInt → XInt → Bool
  | .negInf, .negInf => true
  | .negInf, .fin _ => true
  | .negInf, .posInf => true
  | .fin a, .fin b => a ≤ b
  | .fin _, .posInf => true
  | .fin _, .negInf => false
  | .posInf, .posInf => true
  | .posInf, .fin _ => false
  | .posInf, .negInf => false

instance : LE XInt := ⟨fun a b => XInt.ble a b = true⟩

instance : DecidableRel ((· ≤ ·) : XInt → XInt → Prop) :=
  fun a b => inferInstanceAs (Decidable (XInt.ble a b = true))

theorem XInt.le_def (a b : XInt) : a ≤ b ↔ XInt.ble a b = true := Iff.rfl

instance : LinearOrder XInt where
  le a b := a ≤ b
  le_refl a := by cases a <;> simp [XInt.le_def, XInt.ble]
  le_trans a b c hab hbc := by
    cases a <;> cases b <;> cases c <;> simp_all [XInt.le_def, XInt.ble] <;> omega
  le_antisymm a b hab hba := by
    cases a <;> cases b <;> simp_all [XInt.le_def, XInt.ble] <;> omega
  le_total a b := by
    cases a <;> cases b <;> simp [XInt.le_def, XInt.ble] <;> omega
  decidableLE a b := inferInstanceAs (Decidable (XInt.ble a b = true))

theorem XInt.negInf_le (a : XInt) : XInt.negInf ≤ a := by
  cases a <;> exact rfl

theorem XInt.le_posInf (a : XInt) : a ≤ XInt.posInf := by
  cases a <;> exact rfl

theorem XInt.lt_posInf_of_ne {a : XInt} (h : a ≠ XInt.posInf) : a < XInt.posInf :=
  lt_of_le_of_ne (XInt.le_posInf a) h

theorem XInt.negInf_lt_of_ne {a : XInt} (h : a ≠ XInt.negInf) : XInt.negInf < a :=
  lt_of_le_of_ne (XInt.negInf_le a) (Ne.symm h)

/-- The maximizing loop of MiniMax: place the engine's mark on each candidate,
recurse (the recursive call is passed in as rec, already at the child depth
and minimizing), revert the placement, track the first strictly greater score
and its move, raise alpha, and stop as soon as beta <= alpha. -/
def maxLoop (rec : Board → XInt → XInt → Option Move × XInt × Board) :
    Board → List Move → XInt → XInt → Option Move → XInt → Option Move × XInt × Board
  | b, [], _, _, best, maxEval => (best, maxEval, b)
  | b, m :: rest, alpha, beta, best, maxEval =>
    let b1 := MakeMove b m.1 m.2 AI
    let r := rec b1 alpha beta
    let b2 := MakeMove r.2.2 m.1 m.2 0
    let ev := r.2.1
    let best2 := if maxEval < ev then some m else best
    let max2 := if maxEval < ev then ev else maxEval
    let alpha2 := max alpha ev
    if beta ≤ alpha2 then (best2, max2, b2)
    else maxLoop rec b2 rest alpha2 beta best2 max2

/-- The minimizing loop of MiniMax: place the human's mark on each candidate,
recurse, revert, track the first strictly smaller score and its move, lower
beta, and stop as soon as beta <= alpha. -/
def minLoop (rec : Board → XInt → XInt → Option Move × XInt × Board) :
    Board → List Move → XInt → XInt → Option Move → XInt → Option Move × XInt × Board
  | b, [], _, _, best, minEval => (best, minEval, b)
  | b, m :: rest, alpha, beta, best, minEval =>
    let b1 := MakeMove b m.1 m.2 HUMAN
    let r := rec b1 alpha beta
    let b2 := MakeMove r.2.2 m.1 m.2 0
    let ev := r.2.1
    let best2 := if ev < minEval then some m else best
    let min2 := if ev < minEval then ev else minEval
    let beta2 := min beta ev
    if beta2 ≤ alpha then (best2, min2, b2)
    else minLoop rec b2 rest alpha beta2 best2 min2

/-- MiniMax with alpha-beta pruning, embedded in state-passing style: the
returned triple is (best move, score, the board after the call). At depth 0
or when either side already won it evaluates the board for the engine;
otherwise it runs the maximizing or minimizing loop over the candidates. -/
def MiniMax : Nat → Board → XInt → XInt → Bool → Option Move × XInt × Board
  | 0, b, _, _, _ => (none, XInt.fin (Board_Evaluate b AI), b)
  | d + 1, b, alpha, beta, maximizing =>
    if WinnerCheck b HUMAN || WinnerCheck b AI then
      (none, XInt.fin (Board_Evaluate b AI), b)
    else if maximizing then
      maxLoop (fun b2 a2 β2 => MiniMax d b2 a2 β2 false) b
        (ValidMoveFinder b 2) alpha beta none XInt.negInf
    else
      minLoop (fun b2 a2 β2 => MiniMax d b2 a2 β2 true) b
        (ValidMoveFinder b 2) alpha beta none XInt.posInf

/-- The loop of CriticalMoveFinder: place the player's mark on each candidate,
test for an immediate win, and revert the placement either way; the first
winning candidate is returned. -/
def CMFLoop (player : Nat) : Board → List Move → Option Move × Board
  | b, [] => (none, b)
  | b, m :: rest =>
    let b1 := MakeMove b m.1 m.2 player
    if WinnerCheck b1 player then (some m, MakeMove b1 m.1 m.2 0)
    else CMFLoop player (MakeMove b1 m.1 m.2 0) rest

/-- CriticalMoveFinder: the first candidate whose speculative placement wins
immediately for the player, with the board it leaves behind. -/
def CriticalMoveFinder (b : Board) (player : Nat) : Option Move × Board :=
  CMFLoop player b (ValidMoveFinder b 2)

/-- The speculative place-then-check probe named wouldWin by the
specification: place the side's mark, test for a win, revert by writing the
cell back to empty. It is the body of CriticalMoveFinder's scan. -/
def wouldWin (b : Board) (row col : Int) (side : Nat) : Bool × Board :=
  let b1 := MakeMove b row col side
  if WinnerCheck b1 side then (true, MakeMove b1 row col 0)
  else (false, MakeMove b1 row col 0)

/-- AI_move: immediate winning move if any, else immediate block of the
human's winning move, else the move of the depth-2 search. State-passing:
the second component is the board after the call. -/
def AI_move (b : Board) : Option Move × Board :=
  let r1 := CriticalMoveFinder b AI
  match r1.1 with
  | some m => (some m, r1.2)
  | none =>
    let r2 := CriticalMoveFinder r1.2 HUMAN
    match r2.1 with
    | some m => (some m, r2.2)
    | none =>
      let r3 := MiniMax 2 r2.2 XInt.negInf XInt.posInf true
      (r3.1, r3.2.2)

/-- The human-move entry point of the game loop: the move is applied only
when CheckValidMove accepts it, and the board is untouched otherwise. -/
def applyHumanMove (b : Board) (row col : Int) : Bool × Board :=
  if CheckValidMove b row col then (true, MakeMove b row col HUMAN)
  else (false, b)

/-! ### Basic board lemmas -/

theorem MakeMove_same (b : Board) (row col : Int) (v : Nat) :
    MakeMove b row col v row col = v := by
  simp [MakeMove]

theorem MakeMove_other (b : Board) (row col : Int) (v : Nat) {r c : Int}
    (h : ¬(r = row ∧ c = col)) : MakeMove b row col v r c = b r c := by
  simp [MakeMove, h]

theorem MakeMove_cancel {b : Board} {row col : Int} (h : b row col = 0) (v : Nat) :
    MakeMove (MakeMove b row col v) row col 0 = b := by
  funext r c
  by_cases hrc : r = row ∧ c = col
  · obtain ⟨rfl, rfl⟩ := hrc
    simp [MakeMove, h]
  · simp [MakeMove, hrc]

/-- Concrete board with a single human piece at the origin. -/
def bOne : Board := fun r c => if r = 0 ∧ c = 0 then HUMAN else 0

/-- C9. applyHumanMove rejects an out-of-bounds or occupied target, reporting
the move as not accepted and leaving the board unchanged. -/
theorem c9_applyHumanMove_reject (b : Board) (row col : Int)
    (h : (row < 0 ∨ (BOARD_DIMENSION : Int) ≤ row ∨ col < 0 ∨ (BOARD_DIMENSION : Int) ≤ col)
        ∨ b row col ≠ 0) :
    applyHumanMove b row col = (false, b) := by
  have hcv : CheckValidMove b row col = false := by
    simp only [CheckValidMove, inB, Bool.and_eq_false_iff, decide_eq_false_iff_not]
    rcases h with h | h
    · left; omega
    · right; simpa using h
  simp [applyHumanMove, hcv]

/-- Witness for C9 at a concrete occupied cell. -/
theorem c9_witness :
    bOne 0 0 ≠ 0 ∧ applyHumanMove bOne 0 0 = (false, bOne) :=
  ⟨by decide, c9_applyHumanMove_reject bOne 0 0 (Or.inr (by decide))⟩

/-! ### Win detection: characterization of WinnerCheck -/

theorem prefLen_eq_fuel_iff (good : Nat → Bool) (i fuel : Nat) :
    prefLen good i fuel = fuel ↔ ∀ j, j < fuel → good (i + j) = true := by
  induction fuel generalizing i with
  | zero => simp [prefLen]
  | succ n ih =>
    by_cases hg : good i = true
    · simp only [prefLen, hg, if_true]
      rw [show (1 + prefLen good (i + 1) n = n + 1) ↔ (prefLen good (i + 1) n = n) by omega]
      rw [ih]
      constructor
      · intro h j hj
        match j with
        | 0 => simpa using hg
        | j + 1 =>
          have := h j (by omega)
          simpa [Nat.add_assoc, Nat.add_comm 1 j] using this
      · intro h j hj
        have := h (j + 1) (by omega)
        simpa [Nat.add_assoc, Nat.add_comm 1 j] using this
    · have h0 : prefLen good i (n + 1) = 0 := by simp [prefLen, hg]
      rw [h0]
      constructor
      · intro h
        exact absurd h (by omega)
      · intro h
        exact absurd (by simpa using h 0 (by omega)) hg

theorem prefLen_zero_of_bad {good : Nat → Bool} {i : Nat} (h : good i = false) (fuel : Nat) :
    prefLen good i fuel = 0 := by
  cases fuel <;> simp [prefLen, h]

/-- The test scanned by PatternCount at step i. -/
def runCell (b : Board) (row col dr dc : Int) (target : Nat) (i : Nat) : Bool :=
  inB (row + dr * i) (col + dc * i) && (b (row + dr * i) (col + dc * i) == target)

theorem PatternCount_def (b : Board) (row col dr dc : Int) (target : Nat) :
    PatternCount b row col dr dc target =
      prefLen (runCell b row col dr dc target) 0 SEQUENCE_LENGTH := rfl

theorem PatternCount_full_iff (b : Board) (row col dr dc : Int) (target : Nat) :
    PatternCount b row col dr dc target = SEQUENCE_LENGTH ↔
      ∀ j, j < SEQUENCE_LENGTH → runCell b row col dr dc target j = true := by
  rw [PatternCount_def, prefLen_eq_fuel_iff]
  simp

/-- The specification-side winning condition: some run of at least
SEQUENCE_LENGTH consecutive cells, along one of the four axis directions,
entirely in bounds and all owned by the player. -/
def existsRun (b : Board) (player : Nat) : Prop :=
  ∃ (r c : Int) (d : Int × Int) (n : Nat), d ∈ directions ∧ SEQUENCE_LENGTH ≤ n ∧
    ∀ i : Nat, i < n →
      inB (r + d.1 * i) (c + d.2 * i) = true ∧ b (r + d.1 * i) (c + d.2 * i) = player

/-- C2. WinnerCheck is true exactly when some axis-aligned run of at least five
consecutive cells is entirely owned by the player: the forward-only scan from
each owned cell in the four directions detects every such run. -/
theorem c2_WinnerCheck_iff_existsRun (b : Board) (player : Nat) :
    WinnerCheck b player = true ↔ existsRun b player := by
  constructor
  · intro h
    simp only [WinnerCheck, List.any_eq_true, List.mem_range, Bool.and_eq_true,
      beq_iff_eq] at h
    obtain ⟨row, _, col, _, hcell, d, hd, hpc⟩ := h
    refine ⟨row, col, d, SEQUENCE_LENGTH, hd, le_refl _, ?_⟩
    intro i hi
    have := (PatternCount_full_iff b row col d.1 d.2 player).mp (by simpa using hpc) i hi
    simpa [runCell, Bool.and_eq_true, beq_iff_eq] using this
  · rintro ⟨r, c, d, n, hd, hn, hrun⟩
    have hrun5 : ∀ i : Nat, i < SEQUENCE_LENGTH →
        inB (r + d.1 * i) (c + d.2 * i) = true ∧ b (r + d.1 * i) (c + d.2 * i) = player :=
      fun i hi => hrun i (lt_of_lt_of_le hi hn)
    have h0 := hrun5 0 (by simp [SEQUENCE_LENGTH])
    simp only [Int.ofNat_zero, mul_zero, add_zero] at h0
    obtain ⟨hb0, hcell0⟩ := h0
    have hr : 0 ≤ r ∧ r < (BOARD_DIMENSION : Int) ∧ 0 ≤ c ∧ c < (BOARD_DIMENSION : Int) := by
      simpa [inB] using hb0
    simp only [WinnerCheck, List.any_eq_true, List.mem_range, Bool.and_eq_true, beq_iff_eq]
    refine ⟨r.toNat, ?_, c.toNat, ?_, ?_, d, hd, ?_⟩
    · omega
    · omega
    · rw [Int.toNat_of_nonneg hr.1, Int.toNat_of_nonneg hr.2.2.1]
      exact hcell0
    · rw [Int.toNat_of_nonneg hr.1, Int.toNat_of_nonneg hr.2.2.1]
      rw [PatternCount_full_iff]
      intro j hj
      have := hrun5 j hj
      simp [runCell, this.1, this.2]

/-! ### Evaluator: characterization of Board_Evaluate -/

theorem foldl_add_int {α : Type} (g : α → Int) (l : List α) (s : Int) :
    l.foldl (fun acc x => acc + g x) s = s + (l.map g).sum := by
  induction l generalizing s with
  | nil => simp
  | cons x t ih => simp [ih, add_assoc]

/-- The contribution of one cell and one direction to the heuristic score. -/
def evalTerm (b : Board) (player opponent : Nat) (row col : Int) (d : Int × Int) : Int :=
  if b row col = player then (PatternCount b row col d.1 d.2 player : Int) ^ 2
  else if b row col = opponent then -((PatternCount b row col d.1 d.2 opponent : Int) ^ 2)
  else 0

theorem foldl_eval_inner (b : Board) (player opponent : Nat) (row col : Int)
    (l : List (Int × Int)) (s : Int) :
    l.foldl
      (fun score d =>
        if b row col = player then score + (PatternCount b row col d.1 d.2 player : Int) ^ 2
        else if b row col = opponent then
          score - (PatternCount b row col d.1 d.2 opponent : Int) ^ 2
        else score) s
    = s + (l.map (evalTerm b player opponent row col)).sum := by
  have hfun : (fun (score : Int) (d : Int × Int) =>
      if b row col = player then score + (PatternCount b row col d.1 d.2 player : Int) ^ 2
      else if b row col = opponent then
        score - (PatternCount b row col d.1 d.2 opponent : Int) ^ 2
      else score)
      = fun score d => score + evalTerm b player opponent row col d := by
    funext score d
    unfold evalTerm
    split_ifs <;> ring
  rw [hfun]
  exact foldl_add_int _ _ _

theorem Board_Evaluate_eq_sum (b : Board) (player : Nat) :
    Board_Evaluate b player =
      ((List.range BOARD_DIMENSION).map fun (row : Nat) =>
        ((List.range BOARD_DIMENSION).map fun (col : Nat) =>
          (directions.map
            (evalTerm b player (if player = AI then HUMAN else AI) row col)).sum).sum).sum := by
  unfold Board_Evaluate
  simp only [foldl_eval_inner, foldl_add_int, zero_add]

theorem PatternCount_zero_of_ne {b : Board} {row col : Int} {target : Nat}
    (h : b row col ≠ target) (dr dc : Int) :
    PatternCount b row col dr dc target = 0 := by
  apply prefLen_zero_of_bad
  simp [runCell, h]

/-- Specification-side evaluation: for every cell and direction, the square of
the forward run of the side's value minus the square of the forward run of the
opponent's value. -/
def evaluateSpec (b : Board) (player : Nat) : Int :=
  ((List.range BOARD_DIMENSION).map fun (row : Nat) =>
    ((List.range BOARD_DIMENSION).map fun (col : Nat) =>
      (directions.map fun d =>
        (PatternCount b row col d.1 d.2 player : Int) ^ 2
          - (PatternCount b row col d.1 d.2
              (if player = AI then HUMAN else AI) : Int) ^ 2).sum).sum).sum

theorem opponent_ne_player (player : Nat) : (if player = AI then HUMAN else AI) ≠ player := by
  split_ifs with h
  · simp [h, HUMAN, AI]
  · exact fun hc => h hc.symm

/-- C8. Board_Evaluate equals the sum, over every cell and direction, of the
squared forward run length of the player's value minus the squared forward
run length of the opponent's value starting at that cell. -/
theorem c8_Board_Evaluate_eq_spec (b : Board) (player : Nat) :
    Board_Evaluate b player = evaluateSpec b player := by
  rw [Board_Evaluate_eq_sum, evaluateSpec]
  have hne := opponent_ne_player player
  obtain ⟨opp, hopp⟩ : ∃ o, (if player = AI then HUMAN else AI) = o := ⟨_, rfl⟩
  rw [hopp] at hne ⊢
  refine congrArg List.sum (List.map_congr_left fun row _ => ?_)
  refine congrArg List.sum (List.map_congr_left fun col _ => ?_)
  refine congrArg List.sum (List.map_congr_left fun d _ => ?_)
  unfold evalTerm
  split_ifs with h1 h2
  · rw [PatternCount_zero_of_ne (show b row col ≠ opp by rw [h1]; exact fun hc => hne hc.symm)
        d.1 d.2]
    ring
  · rw [PatternCount_zero_of_ne h1 d.1 d.2]
    ring
  · rw [PatternCount_zero_of_ne h1 d.1 d.2, PatternCount_zero_of_ne h2 d.1 d.2]
    ring

theorem neg_sum_map {α : Type} (f : α → Int) (l : List α) :
    -((l.map f).sum) = (l.map fun x => -(f x)).sum := by
  induction l with
  | nil => simp
  | cons x t ih => simp [neg_add, ih, add_comm]

theorem evalTerm_neg (b : Board) (row col : Int) (d : Int × Int) :
    evalTerm b AI HUMAN row col d = -(evalTerm b HUMAN AI row col d) := by
  have h12 : ¬(b row col = AI ∧ b row col = HUMAN) := by
    rintro ⟨ha, hh⟩
    rw [ha] at hh
    exact absurd hh (by decide)
  unfold evalTerm
  split_ifs with h1 h2
  · exact (h12 ⟨h1, h2⟩).elim
  · ring
  · ring
  · ring

/-- C10. The heuristic is antisymmetric in the side it is computed for:
evaluating for the engine negates the evaluation for the human. -/
theorem c10_evaluate_antisymm (b : Board) :
    Board_Evaluate b AI = -(Board_Evaluate b HUMAN) := by
  rw [Board_Evaluate_eq_sum, Board_Evaluate_eq_sum]
  have hai : (if AI = AI then HUMAN else AI) = HUMAN := if_pos rfl
  have hhu : (if HUMAN = AI then HUMAN else AI) = AI := if_neg (by decide)
  rw [hai, hhu]
  rw [neg_sum_map]
  refine congrArg List.sum (List.map_congr_left fun row _ => ?_)
  rw [neg_sum_map]
  refine congrArg List.sum (List.map_congr_left fun col _ => ?_)
  rw [neg_sum_map]
  refine congrArg List.sum (List.map_congr_left fun d _ => ?_)
  exact evalTerm_neg b row col d

/-! ### Candidate generation: characterization of ValidMoveFinder -/

theorem mem_offsets (radius : Nat) (x : Int) :
    x ∈ offsets radius ↔ -(radius : Int) ≤ x ∧ x ≤ (radius : Int) := by
  simp only [offsets, List.mem_map, List.mem_range]
  constructor
  · rintro ⟨k, hk, rfl⟩
    omega
  · intro h
    exact ⟨(x + radius).toNat, by omega, by omega⟩

theorem mem_insert_step (b : Board) (nr nc : Int) (acc : List Move) (m : Move) :
    (m ∈ if CheckValidMove b nr nc = true ∧ (nr, nc) ∉ acc then acc ++ [(nr, nc)] else acc)
      ↔ m ∈ acc ∨ (m = (nr, nc) ∧ CheckValidMove b nr nc = true) := by
  by_cases hc : CheckValidMove b nr nc = true
  · by_cases hm : (nr, nc) ∈ acc
    · rw [if_neg fun hcond => hcond.2 hm]
      constructor
      · exact Or.inl
      · rintro (h | ⟨rfl, _⟩)
        · exact h
        · exact hm
    · rw [if_pos ⟨hc, hm⟩]
      simp only [List.mem_append, List.mem_singleton]
      constructor
      · rintro (h | h)
        · exact Or.inl h
        · exact Or.inr ⟨h, hc⟩
      · rintro (h | ⟨h, _⟩)
        · exact Or.inl h
        · exact Or.inr h
  · rw [if_neg fun hh => hc hh.1]
    simp [hc]

theorem mem_vmf_dc (b : Board) (nr colI : Int) (l : List Int) (acc : List Move) (m : Move) :
    m ∈ l.foldl
        (fun moves dc =>
          if CheckValidMove b nr (colI + dc) = true ∧ (nr, colI + dc) ∉ moves then
            moves ++ [(nr, colI + dc)]
          else moves) acc
      ↔ m ∈ acc ∨ ∃ dc ∈ l, m = (nr, colI + dc) ∧ CheckValidMove b nr (colI + dc) = true := by
  induction l generalizing acc with
  | nil => simp
  | cons dc t ih =>
    rw [List.foldl_cons, ih, mem_insert_step]
    simp only [List.mem_cons]
    constructor
    · rintro ((h | h) | ⟨x, hx, hp⟩)
      · exact Or.inl h
      · exact Or.inr ⟨dc, Or.inl rfl, h⟩
      · exact Or.inr ⟨x, Or.inr hx, hp⟩
    · rintro (h | ⟨x, hx | hx, hp⟩)
      · exact Or.inl (Or.inl h)
      · exact Or.inl (Or.inr (hx ▸ hp))
      · exact Or.inr ⟨x, hx, hp⟩

theorem mem_vmf_dr (b : Board) (rowI colI : Int) (ldr ldc : List Int)
    (acc : List Move) (m : Move) :
    m ∈ ldr.foldl
        (fun moves dr =>
          ldc.foldl
            (fun moves dc =>
              if CheckValidMove b (rowI + dr) (colI + dc) = true
                  ∧ (rowI + dr, colI + dc) ∉ moves then
                moves ++ [(rowI + dr, colI + dc)]
              else moves) moves) acc
      ↔ m ∈ acc ∨ ∃ dr ∈ ldr, ∃ dc ∈ ldc,
          m = (rowI + dr, colI + dc) ∧ CheckValidMove b (rowI + dr) (colI + dc) = true := by
  induction ldr generalizing acc with
  | nil => simp
  | cons dr t ih =>
    rw [List.foldl_cons, ih, mem_vmf_dc]
    simp only [List.mem_cons]
    constructor
    · rintro ((h | ⟨x, hx, hp⟩) | ⟨x, hx, y, hy, hp⟩)
      · exact Or.inl h
      · exact Or.inr ⟨dr, Or.inl rfl, x, hx, hp⟩
      · exact Or.inr ⟨x, Or.inr hx, y, hy, hp⟩
    · rintro (h | ⟨x, hx | hx, y, hy, hp⟩)
      · exact Or.inl (Or.inl h)
      · exact Or.inl (Or.inr ⟨y, hy, hx ▸ hp⟩)
      · exact Or.inr ⟨x, hx, y, hy, hp⟩

theorem mem_vmf_col (b : Board) (radius : Nat) (row : Nat) (lcol : List Nat)
    (acc : List Move) (m : Move) :
    m ∈ lcol.foldl
        (fun moves (col : Nat) =>
          if b row col ≠ 0 then
            (offsets radius).foldl
              (fun moves (dr : Int) =>
                (offsets radius).foldl
                  (fun moves (dc : Int) =>
                    if CheckValidMove b ((row : Int) + dr) ((col : Int) + dc) = true
                        ∧ ((row : Int) + dr, (col : Int) + dc) ∉ moves then
                      moves ++ [((row : Int) + dr, (col : Int) + dc)]
                    else moves) moves) moves
          else moves) acc
      ↔ m ∈ acc ∨ ∃ col ∈ lcol, b row col ≠ 0 ∧ ∃ dr ∈ offsets radius, ∃ dc ∈ offsets radius,
          m = ((row : Int) + dr, (col : Int) + dc)
            ∧ CheckValidMove b ((row : Int) + dr) ((col : Int) + dc) = true := by
  induction lcol generalizing acc with
  | nil => simp
  | cons col t ih =>
    rw [List.foldl_cons, ih]
    by_cases hocc : b row col ≠ 0
    · rw [if_pos hocc, mem_vmf_dr]
      simp only [List.mem_cons]
      constructor
      · rintro ((h | hp) | ⟨x, hx, hp⟩)
        · exact Or.inl h
        · exact Or.inr ⟨col, Or.inl rfl, hocc, hp⟩
        · exact Or.inr ⟨x, Or.inr hx, hp⟩
      · rintro (h | ⟨x, hx | hx, hp⟩)
        · exact Or.inl (Or.inl h)
        · exact Or.inl (Or.inr (hx ▸ hp.2))
        · exact Or.inr ⟨x, hx, hp⟩
    · rw [if_neg hocc]
      constructor
      · rintro (h | ⟨x, hx, hp⟩)
        · exact Or.inl h
        · exact Or.inr ⟨x, List.mem_cons_of_mem _ hx, hp⟩
      · rintro (h | ⟨x, hx, hp⟩)
        · exact Or.inl h
        · rcases List.mem_cons.mp hx with rfl | hx2
          · exact absurd hp.1 hocc
          · exact Or.inr ⟨x, hx2, hp⟩

theorem ValidMoveFinder_mem (b : Board) (radius : Nat) (m : Move) :
    m ∈ ValidMoveFinder b radius
      ↔ ∃ row ∈ List.range BOARD_DIMENSION, ∃ col ∈ List.range BOARD_DIMENSION,
          b row col ≠ 0 ∧ ∃ dr ∈ offsets radius, ∃ dc ∈ offsets radius,
            m = ((row : Int) + dr, (col : Int) + dc)
              ∧ CheckValidMove b ((row : Int) + dr) ((col : Int) + dc) = true := by
  unfold ValidMoveFinder
  have hrows : ∀ (lrow : List Nat) (acc : List Move),
      m ∈ lrow.foldl
          (fun moves (row : Nat) =>
            (List.range BOARD_DIMENSION).foldl
              (fun moves (col : Nat) =>
                if b row col ≠ 0 then
                  (offsets radius).foldl
                    (fun moves (dr : Int) =>
                      (offsets radius).foldl
                        (fun moves (dc : Int) =>
                          if CheckValidMove b ((row : Int) + dr) ((col : Int) + dc) = true
                              ∧ ((row : Int) + dr, (col : Int) + dc) ∉ moves then
                            moves ++ [((row : Int) + dr, (col : Int) + dc)]
                          else moves) moves) moves
                else moves) moves) acc
        ↔ m ∈ acc ∨ ∃ row ∈ lrow, ∃ col ∈ List.range BOARD_DIMENSION,
            b row col ≠ 0 ∧ ∃ dr ∈ offsets radius, ∃ dc ∈ offsets radius,
              m = ((row : Int) + dr, (col : Int) + dc)
                ∧ CheckValidMove b ((row : Int) + dr) ((col : Int) + dc) = true := by
    intro lrow
    induction lrow with
    | nil => simp
    | cons row t ih =>
      intro acc
      rw [List.foldl_cons, ih, mem_vmf_col]
      simp only [List.mem_cons]
      constructor
      · rintro ((h | ⟨x, hx, hp⟩) | ⟨x, hx, hp⟩)
        · exact Or.inl h
        · exact Or.inr ⟨row, Or.inl rfl, x, hx, hp⟩
        · exact Or.inr ⟨x, Or.inr hx, hp⟩
      · rintro (h | ⟨x, hx | hx, hp⟩)
        · exact Or.inl (Or.inl h)
        · exact Or.inl (Or.inr (hx ▸ hp))
        · exact Or.inr ⟨x, hx, hp⟩
  rw [hrows]
  simp

theorem foldl_preserve {α β : Type} (P : β → Prop) (step : β → α → β)
    (h : ∀ acc x, P acc → P (step acc x)) (l : List α) :
    ∀ acc, P acc → P (l.foldl step acc) := by
  induction l with
  | nil => intro acc hacc; simpa using hacc
  | cons x t ih => intro acc hacc; exact ih _ (h acc x hacc)

theorem ValidMoveFinder_nodup (b : Board) (radius : Nat) :
    (ValidMoveFinder b radius).Nodup := by
  unfold ValidMoveFinder
  refine foldl_preserve List.Nodup _ (fun acc row hacc => ?_) _ _ (by simp)
  refine foldl_preserve List.Nodup _ (fun acc col hacc => ?_) _ _ hacc
  split_ifs with hocc
  · refine foldl_preserve List.Nodup _ (fun acc dr hacc => ?_) _ _ hacc
    refine foldl_preserve List.Nodup _ (fun acc dc hacc => ?_) _ _ hacc
    split_ifs with hcond
    · simpa [List.nodup_append] using ⟨hacc, hcond.2⟩
    · exact hacc
  · exact hacc

/-- Specification-side description of a candidate move at a given radius:
in bounds, empty, and within Chebyshev distance radius of some occupied
in-bounds cell. -/
def candidateSpec (b : Board) (radius : Nat) (m : Move) : Prop :=
  (0 ≤ m.1 ∧ m.1 < (BOARD_DIMENSION : Int) ∧ 0 ≤ m.2 ∧ m.2 < (BOARD_DIMENSION : Int))
    ∧ b m.1 m.2 = 0
    ∧ ∃ r c : Int,
        (0 ≤ r ∧ r < (BOARD_DIMENSION : Int) ∧ 0 ≤ c ∧ c < (BOARD_DIMENSION : Int))
          ∧ b r c ≠ 0 ∧ |m.1 - r| ≤ (radius : Int) ∧ |m.2 - c| ≤ (radius : Int)

/-- C6. Every move generateMoves returns at radius 2 is in bounds, empty on
the input board, and within Chebyshev distance 2 of an occupied cell — and
conversely every such cell is returned — each exactly once, and a board with
no occupied cell yields no moves. -/
theorem c6_ValidMoveFinder_spec (b : Board) :
    (∀ m, m ∈ ValidMoveFinder b 2 ↔ candidateSpec b 2 m)
      ∧ (ValidMoveFinder b 2).Nodup
      ∧ ((∀ r c : Int, 0 ≤ r → r < (BOARD_DIMENSION : Int) → 0 ≤ c →
            c < (BOARD_DIMENSION : Int) → b r c = 0) → ValidMoveFinder b 2 = []) := by
  have hmem : ∀ m, m ∈ ValidMoveFinder b 2 ↔ candidateSpec b 2 m := by
    intro m
    rw [ValidMoveFinder_mem]
    constructor
    · rintro ⟨row, hrow, col, hcol, hocc, dr, hdr, dc, hdc, rfl, hcv⟩
      rw [List.mem_range] at hrow hcol
      rw [mem_offsets] at hdr hdc
      have hb : (0 ≤ (row : Int) + dr ∧ (row : Int) + dr < (BOARD_DIMENSION : Int)
          ∧ 0 ≤ (col : Int) + dc ∧ (col : Int) + dc < (BOARD_DIMENSION : Int))
          ∧ b ((row : Int) + dr) ((col : Int) + dc) = 0 := by
        have := hcv
        simp only [CheckValidMove, inB, Bool.and_eq_true, decide_eq_true_eq,
          beq_iff_eq] at this
        exact ⟨⟨this.1.1, this.1.2.1, this.1.2.2.1, this.1.2.2.2⟩, this.2⟩
      refine ⟨hb.1, hb.2, (row : Int), (col : Int),
        ⟨by omega, by omega, by omega, by omega⟩, hocc, ?_, ?_⟩
      · simp only [add_sub_cancel_left]
        rw [abs_le]
        omega
      · simp only [add_sub_cancel_left]
        rw [abs_le]
        omega
    · rintro ⟨hmb, hme, r, c, hrc, hocc, hdr, hdc⟩
      rw [abs_le] at hdr hdc
      refine ⟨r.toNat, ?_, c.toNat, ?_, ?_, m.1 - r, ?_, m.2 - c, ?_, ?_, ?_⟩
      · rw [List.mem_range]; omega
      · rw [List.mem_range]; omega
      · rw [Int.toNat_of_nonneg hrc.1, Int.toNat_of_nonneg hrc.2.2.1]; exact hocc
      · rw [mem_offsets]; omega
      · rw [mem_offsets]; omega
      · rw [Int.toNat_of_nonneg hrc.1, Int.toNat_of_nonneg hrc.2.2.1]
        simp [Prod.ext_iff]
      · rw [Int.toNat_of_nonneg hrc.1, Int.toNat_of_nonneg hrc.2.2.1]
        have : (r + (m.1 - r), c + (m.2 - c)) = m := by simp
        simp only [CheckValidMove, inB, Bool.and_eq_true, decide_eq_true_eq, beq_iff_eq]
        constructor
        · constructor
          · omega
          · exact ⟨by omega, by omega, by omega⟩
        · simpa using hme
  refine ⟨hmem, ValidMoveFinder_nodup b 2, fun hempty => ?_⟩
  rw [List.eq_nil_iff_forall_not_mem]
  intro m hm
  obtain ⟨_, _, r, c, hrc, hocc, _, _⟩ := (hmem m).mp hm
  exact hocc (hempty r c hrc.1 hrc.2.1 hrc.2.2.1 hrc.2.2.2)

/-! ### Frame effects: speculative placements are reverted -/

theorem ValidMoveFinder_cell_empty {b : Board} {radius : Nat} {m : Move}
    (h : m ∈ ValidMoveFinder b radius) : b m.1 m.2 = 0 := by
  obtain ⟨row, _, col, _, _, dr, _, dc, _, rfl, hcv⟩ := (ValidMoveFinder_mem b radius m).mp h
  simp only [CheckValidMove, Bool.and_eq_true, beq_iff_eq] at hcv
  exact hcv.2

theorem maxLoop_board (rec : Board → XInt → XInt → Option Move × XInt × Board)
    (hrec : ∀ b alpha beta, (rec b alpha beta).2.2 = b) :
    ∀ (L : List Move) (b : Board) (alpha beta : XInt) (best : Option Move) (maxEval : XInt),
      (∀ m ∈ L, b m.1 m.2 = 0) →
      (maxLoop rec b L alpha beta best maxEval).2.2 = b := by
  intro L
  induction L with
  | nil =>
    intro b alpha beta best maxEval _
    rfl
  | cons m T ih =>
    intro b alpha beta best maxEval h
    have hm0 : b m.1 m.2 = 0 := h m (List.mem_cons_self m T)
    simp only [maxLoop, hrec, MakeMove_cancel hm0]
    split
    · rfl
    · exact ih b _ _ _ _ fun x hx => h x (List.mem_cons_of_mem m hx)

theorem minLoop_board (rec : Board → XInt → XInt → Option Move × XInt × Board)
    (hrec : ∀ b alpha beta, (rec b alpha beta).2.2 = b) :
    ∀ (L : List Move) (b : Board) (alpha beta : XInt) (best : Option Move) (minEval : XInt),
      (∀ m ∈ L, b m.1 m.2 = 0) →
      (minLoop rec b L alpha beta best minEval).2.2 = b := by
  intro L
  induction L with
  | nil =>
    intro b alpha beta best minEval _
    rfl
  | cons m T ih =>
    intro b alpha beta best minEval h
    have hm0 : b m.1 m.2 = 0 := h m (List.mem_cons_self m T)
    simp only [minLoop, hrec, MakeMove_cancel hm0]
    split
    · rfl
    · exact ih b _ _ _ _ fun x hx => h x (List.mem_cons_of_mem m hx)

theorem MiniMax_board :
    ∀ (d : Nat) (b : Board) (alpha beta : XInt) (maximizing : Bool),
      (MiniMax d b alpha beta maximizing).2.2 = b := by
  intro d
  induction d with
  | zero =>
    intro b alpha beta maximizing
    rfl
  | succ n ih =>
    intro b alpha beta maximizing
    rw [MiniMax]
    split
    · rfl
    · split
      · exact maxLoop_board _ (fun b2 a2 β2 => ih b2 a2 β2 false) _ b alpha beta none
          XInt.negInf fun m hm => ValidMoveFinder_cell_empty hm
      · exact minLoop_board _ (fun b2 a2 β2 => ih b2 a2 β2 true) _ b alpha beta none
          XInt.posInf fun m hm => ValidMoveFinder_cell_empty hm

/-- C4. After the search returns, the board equals its pre-search state:
every speculative placement made anywhere in the recursion was reverted,
whether or not pruning cut the enumeration short. -/
theorem c4_MiniMax_preserves_board (d : Nat) (b : Board) (alpha beta : XInt)
    (maximizing : Bool) :
    (MiniMax d b alpha beta maximizing).2.2 = b :=
  MiniMax_board d b alpha beta maximizing

/-- C7 counterexample: on an occupied cell the probe's revert writes Empty,
so the board is not restored; the claim fails for an occupied (row, col). -/
theorem c7_counterexample : (wouldWin bOne 0 0 AI).2 ≠ bOne := by
  intro h
  have h00 : (wouldWin bOne 0 0 AI).2 0 0 = 0 := by decide
  rw [h] at h00
  exact absurd h00 (by decide)

/-- C7 (amended): for a target cell that is Empty on the input board — the
only cells the candidate scan ever probes — wouldWin leaves the board exactly
equal to its state before the call, for both outcomes. -/
theorem c7_wouldWin_restores (b : Board) (row col : Int) (side : Nat)
    (h : b row col = 0) :
    (wouldWin b row col side).2 = b := by
  simp only [wouldWin]
  split <;> exact MakeMove_cancel h side

/-- Witness for the amended C7 at a concrete empty cell. -/
theorem c7_witness :
    Initialize_Board 3 3 = 0
      ∧ (wouldWin Initialize_Board 3 3 AI).2 = Initialize_Board :=
  ⟨rfl, c7_wouldWin_restores Initialize_Board 3 3 AI rfl⟩

theorem MiniMax_empty_moves (d : Nat) (b : Board) (alpha beta : XInt)
    (hd : d ≠ 0) (hH : WinnerCheck b HUMAN = false) (hA : WinnerCheck b AI = false)
    (hmoves : ValidMoveFinder b 2 = []) :
    MiniMax d b alpha beta true = (none, XInt.negInf, b)
      ∧ MiniMax d b alpha beta false = (none, XInt.posInf, b) := by
  obtain ⟨n, rfl⟩ : ∃ n, d = n + 1 := ⟨d - 1, by omega⟩
  rw [MiniMax, MiniMax]
  simp [hH, hA, hmoves, maxLoop, minLoop]

set_option maxRecDepth 8192 in
/-- C1 counterexample: on the empty board (no winner, depth 1) the candidate
list is empty and the maximizing search returns score -infinity, not the
evaluate call's score. -/
theorem c1_counterexample :
    WinnerCheck Initialize_Board HUMAN = false
      ∧ WinnerCheck Initialize_Board AI = false
      ∧ ValidMoveFinder Initialize_Board 2 = []
      ∧ (MiniMax 1 Initialize_Board XInt.negInf XInt.posInf true).2.1
          ≠ XInt.fin (Board_Evaluate Initialize_Board AI) := by
  have hH : WinnerCheck Initialize_Board HUMAN = false := by decide
  have hA : WinnerCheck Initialize_Board AI = false := by decide
  have hm : ValidMoveFinder Initialize_Board 2 = [] := by decide
  have h1 := (MiniMax_empty_moves 1 Initialize_Board XInt.negInf XInt.posInf (by decide)
    hH hA hm).1
  refine ⟨hH, hA, hm, ?_⟩
  rw [h1]
  have h2 : Board_Evaluate Initialize_Board AI = 0 := by decide
  rw [h2]
  decide

/-- C1 (amended): with depth remaining, no winner, and no candidates, the
search returns (none, -infinity) when maximizing and (none, +infinity) when
minimizing — the loop's initial best score — not the evaluate call's score. -/
theorem c1_empty_moves (d : Nat) (b : Board) (alpha beta : XInt)
    (hd : d ≠ 0) (hH : WinnerCheck b HUMAN = false) (hA : WinnerCheck b AI = false)
    (hmoves : ValidMoveFinder b 2 = []) :
    MiniMax d b alpha beta true = (none, XInt.negInf, b)
      ∧ MiniMax d b alpha beta false = (none, XInt.posInf, b) :=
  MiniMax_empty_moves d b alpha beta hd hH hA hmoves

/-- Witness for the amended C1 on the concrete empty board at depth 1. -/
theorem c1_witness :
    (1 ≠ 0)
      ∧ WinnerCheck Initialize_Board HUMAN = false
      ∧ WinnerCheck Initialize_Board AI = false
      ∧ ValidMoveFinder Initialize_Board 2 = []
      ∧ MiniMax 1 Initialize_Board XInt.negInf XInt.posInf true
          = (none, XInt.negInf, Initialize_Board) :=
  ⟨by decide, by decide, by decide, by decide,
    (c1_empty_moves 1 Initialize_Board XInt.negInf XInt.posInf (by decide) (by decide)
      (by decide) (by decide)).1⟩

/-! ### Move selector: characterization of CriticalMoveFinder and AI_move -/

theorem CMFLoop_board (player : Nat) :
    ∀ (L : List Move) (b : Board), (∀ x ∈ L, b x.1 x.2 = 0) →
      (CMFLoop player b L).2 = b := by
  intro L
  induction L with
  | nil =>
    intro b _
    rfl
  | cons m T ih =>
    intro b h
    have hm0 : b m.1 m.2 = 0 := h m (List.mem_cons_self m T)
    simp only [CMFLoop, MakeMove_cancel hm0]
    split
    · rfl
    · exact ih b fun x hx => h x (List.mem_cons_of_mem m hx)

theorem CriticalMoveFinder_board (b : Board) (player : Nat) :
    (CriticalMoveFinder b player).2 = b :=
  CMFLoop_board player _ b fun _ hx => ValidMoveFinder_cell_empty hx

theorem CMFLoop_spec (player : Nat) :
    ∀ (L : List Move) (b : Board), (∀ x ∈ L, b x.1 x.2 = 0) →
      ((CMFLoop player b L).1 = none
          ∧ ∀ x ∈ L, ¬ WinnerCheck (MakeMove b x.1 x.2 player) player = true)
        ∨ (∃ m, (CMFLoop player b L).1 = some m ∧ m ∈ L
            ∧ WinnerCheck (MakeMove b m.1 m.2 player) player = true) := by
  intro L
  induction L with
  | nil =>
    intro b _
    exact Or.inl ⟨rfl, by simp⟩
  | cons m T ih =>
    intro b h
    have hm0 : b m.1 m.2 = 0 := h m (List.mem_cons_self m T)
    by_cases hw : WinnerCheck (MakeMove b m.1 m.2 player) player = true
    · refine Or.inr ⟨m, ?_, List.mem_cons_self m T, hw⟩
      simp only [CMFLoop]
      rw [if_pos hw]
    · have hstep : CMFLoop player b (m :: T) = CMFLoop player b T := by
        simp only [CMFLoop]
        rw [if_neg hw, MakeMove_cancel hm0]
      rw [hstep]
      rcases ih b (fun x hx => h x (List.mem_cons_of_mem m hx)) with ⟨h1, h2⟩ | ⟨x, hx, hmem, hwx⟩
      · refine Or.inl ⟨h1, ?_⟩
        intro x hx
        rcases List.mem_cons.mp hx with rfl | hx2
        · exact hw
        · exact h2 x hx2
      · exact Or.inr ⟨x, hx, List.mem_cons_of_mem m hmem, hwx⟩

theorem CriticalMoveFinder_spec (b : Board) (player : Nat) :
    ((CriticalMoveFinder b player).1 = none
        ∧ ∀ x ∈ ValidMoveFinder b 2, ¬ WinnerCheck (MakeMove b x.1 x.2 player) player = true)
      ∨ (∃ m, (CriticalMoveFinder b player).1 = some m ∧ m ∈ ValidMoveFinder b 2
          ∧ WinnerCheck (MakeMove b m.1 m.2 player) player = true) :=
  CMFLoop_spec player _ b fun _ hx => ValidMoveFinder_cell_empty hx

/-- C5. AI_move follows the priority: an immediately winning candidate if one
exists, else a candidate whose occupation blocks the human's immediate win,
else the best move of the depth-2 maximizing search. -/
theorem c5_AI_move_priority (b : Board) :
    ((∃ m ∈ ValidMoveFinder b 2, WinnerCheck (MakeMove b m.1 m.2 AI) AI = true) →
        ∃ m ∈ ValidMoveFinder b 2, WinnerCheck (MakeMove b m.1 m.2 AI) AI = true
          ∧ (AI_move b).1 = some m)
      ∧ ((¬ ∃ m ∈ ValidMoveFinder b 2, WinnerCheck (MakeMove b m.1 m.2 AI) AI = true) →
          (∃ m ∈ ValidMoveFinder b 2, WinnerCheck (MakeMove b m.1 m.2 HUMAN) HUMAN = true) →
          ∃ m ∈ ValidMoveFinder b 2, WinnerCheck (MakeMove b m.1 m.2 HUMAN) HUMAN = true
            ∧ (AI_move b).1 = some m)
      ∧ ((¬ ∃ m ∈ ValidMoveFinder b 2, WinnerCheck (MakeMove b m.1 m.2 AI) AI = true) →
          (¬ ∃ m ∈ ValidMoveFinder b 2, WinnerCheck (MakeMove b m.1 m.2 HUMAN) HUMAN = true) →
          (AI_move b).1 = (MiniMax 2 b XInt.negInf XInt.posInf true).1) := by
  have hb1 : (CriticalMoveFinder b AI).2 = b := CriticalMoveFinder_board b AI
  refine ⟨?_, ?_, ?_⟩
  · intro hex
    rcases CriticalMoveFinder_spec b AI with ⟨_, hall⟩ | ⟨m, hsome, hmem, hwin⟩
    · obtain ⟨m, hmem, hwin⟩ := hex
      exact absurd hwin (hall m hmem)
    · exact ⟨m, hmem, hwin, by simp [AI_move, hsome]⟩
  · intro hnex hex2
    rcases CriticalMoveFinder_spec b AI with ⟨hnone1, _⟩ | ⟨m, _, hmem, hwin⟩
    · rcases CriticalMoveFinder_spec b HUMAN with ⟨_, hall2⟩ | ⟨m, hsome2, hmem2, hwin2⟩
      · obtain ⟨m, hmem, hwin⟩ := hex2
        exact absurd hwin (hall2 m hmem)
      · exact ⟨m, hmem2, hwin2, by simp [AI_move, hnone1, hb1, hsome2]⟩
    · exact absurd ⟨m, hmem, hwin⟩ hnex
  · intro hnex hnex2
    rcases CriticalMoveFinder_spec b AI with ⟨hnone1, _⟩ | ⟨m, _, hmem, hwin⟩
    · rcases CriticalMoveFinder_spec b HUMAN with ⟨hnone2, _⟩ | ⟨m, _, hmem2, hwin2⟩
      · have hb2 : (CriticalMoveFinder b HUMAN).2 = b := CriticalMoveFinder_board b HUMAN
        simp [AI_move, hnone1, hb1, hnone2, hb2]
      · exact absurd ⟨m, hmem2, hwin2⟩ hnex2
    · exact absurd ⟨m, hmem, hwin⟩ hnex

/-! ### Alpha-beta equivalence: the unpruned reference minimax -/

/-- The maximizing loop of the unpruned reference minimax, with the same
first-strictly-greater tie-breaking as the pruned search but no alpha-beta
window and no early exit. -/
def refMaxLoop (vf : Move → XInt) : List Move → Option Move → XInt → Option Move × XInt
  | [], best, bestVal => (best, bestVal)
  | m :: rest, best, bestVal =>
    if bestVal < vf m then refMaxLoop vf rest (some m) (vf m)
    else refMaxLoop vf rest best bestVal

/-- The minimizing loop of the unpruned reference minimax. -/
def refMinLoop (vf : Move → XInt) : List Move → Option Move → XInt → Option Move × XInt
  | [], best, bestVal => (best, bestVal)
  | m :: rest, best, bestVal =>
    if vf m < bestVal then refMinLoop vf rest (some m) (vf m)
    else refMinLoop vf rest best bestVal

/-- Unpruned exhaustive minimax over the same move enumeration, same terminal
conditions and same tie-breaking as MiniMax, with no alpha-beta window. -/
def MiniMaxRef : Nat → Board → Bool → Option Move × XInt
  | 0, b, _ => (none, XInt.fin (Board_Evaluate b AI))
  | d + 1, b, maximizing =>
    if WinnerCheck b HUMAN || WinnerCheck b AI then
      (none, XInt.fin (Board_Evaluate b AI))
    else if maximizing then
      refMaxLoop (fun m => (MiniMaxRef d (MakeMove b m.1 m.2 AI) false).2)
        (ValidMoveFinder b 2) none XInt.negInf
    else
      refMinLoop (fun m => (MiniMaxRef d (MakeMove b m.1 m.2 HUMAN) true).2)
        (ValidMoveFinder b 2) none XInt.posInf

/-- Fail-soft alpha-beta contract: inside the window the result is exact, and
outside it the result is bounded between the true value and the violated
bound. -/
def approx (alpha beta r v : XInt) : Prop :=
  (v ≤ alpha → v ≤ r ∧ r ≤ alpha)
    ∧ (alpha < v → v < beta → r = v)
    ∧ (beta ≤ v → beta ≤ r ∧ r ≤ v)

theorem approx_self (alpha beta v : XInt) : approx alpha beta v v :=
  ⟨fun h => ⟨le_refl v, h⟩, fun _ _ => rfl, fun h => ⟨h, le_refl v⟩⟩

theorem refMaxLoop_le (vf : Move → XInt) :
    ∀ (L : List Move) (best : Option Move) (bestVal : XInt),
      bestVal ≤ (refMaxLoop vf L best bestVal).2 := by
  intro L
  induction L with
  | nil => intro best bestVal; exact le_refl _
  | cons m T ih =>
    intro best bestVal
    rw [refMaxLoop]
    split
    · exact le_trans (le_of_lt (by assumption)) (ih (some m) (vf m))
    · exact ih best bestVal

theorem refMinLoop_le (vf : Move → XInt) :
    ∀ (L : List Move) (best : Option Move) (bestVal : XInt),
      (refMinLoop vf L best bestVal).2 ≤ bestVal := by
  intro L
  induction L with
  | nil => intro best bestVal; exact le_refl _
  | cons m T ih =>
    intro best bestVal
    rw [refMinLoop]
    split
    · exact le_trans (ih (some m) (vf m)) (le_of_lt (by assumption))
    · exact ih best bestVal

theorem refMaxLoop_posInf (vf : Move → XInt) :
    ∀ (L : List Move) (best : Option Move),
      refMaxLoop vf L best XInt.posInf = (best, XInt.posInf) := by
  intro L
  induction L with
  | nil => intro best; rfl
  | cons m T ih =>
    intro best
    rw [refMaxLoop, if_neg (not_lt.mpr (XInt.le_posInf (vf m)))]
    exact ih best

theorem refMinLoop_negInf (vf : Move → XInt) :
    ∀ (L : List Move) (best : Option Move),
      refMinLoop vf L best XInt.negInf = (best, XInt.negInf) := by
  intro L
  induction L with
  | nil => intro best; rfl
  | cons m T ih =>
    intro best
    rw [refMinLoop, if_neg (not_lt.mpr (XInt.negInf_le (vf m)))]
    exact ih best

theorem maxLoop_cons_eq (d : Nat) (b : Board) (m : Move) (T : List Move)
    (alpha beta : XInt) (best : Option Move) (mE : XInt) (hm0 : b m.1 m.2 = 0) :
    maxLoop (fun b2 a2 β2 => MiniMax d b2 a2 β2 false) b (m :: T) alpha beta best mE
      = if beta ≤ max alpha (MiniMax d (MakeMove b m.1 m.2 AI) alpha beta false).2.1 then
          (if mE < (MiniMax d (MakeMove b m.1 m.2 AI) alpha beta false).2.1 then some m
            else best,
           if mE < (MiniMax d (MakeMove b m.1 m.2 AI) alpha beta false).2.1 then
             (MiniMax d (MakeMove b m.1 m.2 AI) alpha beta false).2.1
           else mE,
           b)
        else
          maxLoop (fun b2 a2 β2 => MiniMax d b2 a2 β2 false) b T
            (max alpha (MiniMax d (MakeMove b m.1 m.2 AI) alpha beta false).2.1) beta
            (if mE < (MiniMax d (MakeMove b m.1 m.2 AI) alpha beta false).2.1 then some m
              else best)
            (if mE < (MiniMax d (MakeMove b m.1 m.2 AI) alpha beta false).2.1 then
              (MiniMax d (MakeMove b m.1 m.2 AI) alpha beta false).2.1
            else mE) := by
  simp only [maxLoop, MiniMax_board, MakeMove_cancel hm0]

theorem minLoop_cons_eq (d : Nat) (b : Board) (m : Move) (T : List Move)
    (alpha beta : XInt) (best : Option Move) (mE : XInt) (hm0 : b m.1 m.2 = 0) :
    minLoop (fun b2 a2 β2 => MiniMax d b2 a2 β2 true) b (m :: T) alpha beta best mE
      = if min beta (MiniMax d (MakeMove b m.1 m.2 HUMAN) alpha beta true).2.1 ≤ alpha then
          (if (MiniMax d (MakeMove b m.1 m.2 HUMAN) alpha beta true).2.1 < mE then some m
            else best,
           if (MiniMax d (MakeMove b m.1 m.2 HUMAN) alpha beta true).2.1 < mE then
             (MiniMax d (MakeMove b m.1 m.2 HUMAN) alpha beta true).2.1
           else mE,
           b)
        else
          minLoop (fun b2 a2 β2 => MiniMax d b2 a2 β2 true) b T
            alpha (min beta (MiniMax d (MakeMove b m.1 m.2 HUMAN) alpha beta true).2.1)
            (if (MiniMax d (MakeMove b m.1 m.2 HUMAN) alpha beta true).2.1 < mE then some m
              else best)
            (if (MiniMax d (MakeMove b m.1 m.2 HUMAN) alpha beta true).2.1 < mE then
              (MiniMax d (MakeMove b m.1 m.2 HUMAN) alpha beta true).2.1
            else mE) := by
  simp only [minLoop, MiniMax_board, MakeMove_cancel hm0]

theorem ite_lt_eq_max (a c : XInt) : (if a < c then c else a) = max a c := by
  split_ifs with h
  · exact (max_eq_right (le_of_lt h)).symm
  · exact (max_eq_left (not_lt.mp h)).symm

theorem ite_lt_eq_min (a c : XInt) : (if c < a then c else a) = min a c := by
  split_ifs with h
  · exact (min_eq_right (le_of_lt h)).symm
  · exact (min_eq_left (not_lt.mp h)).symm

theorem maxLoop_approx (d : Nat) (b : Board) (alpha0 beta : XInt)
    (hIH : ∀ (b2 : Board) (a2 : XInt), a2 < beta →
      approx a2 beta (MiniMax d b2 a2 beta false).2.1 (MiniMaxRef d b2 false).2) :
    ∀ (L : List Move) (mEp mEu : XInt) (bestP bestU : Option Move),
      (∀ m ∈ L, b m.1 m.2 = 0) →
      mEu ≤ mEp → mEp ≤ max alpha0 mEu → max alpha0 mEp < beta →
      approx alpha0 beta
        (maxLoop (fun b2 a2 β2 => MiniMax d b2 a2 β2 false) b L (max alpha0 mEp) beta
          bestP mEp).2.1
        (refMaxLoop (fun m => (MiniMaxRef d (MakeMove b m.1 m.2 AI) false).2) L
          bestU mEu).2 := by
  intro L
  induction L with
  | nil =>
    intro mEp mEu bestP bestU _ h1 h2 h3
    have halpha : alpha0 < beta := lt_of_le_of_lt (le_max_left _ _) h3
    refine ⟨fun hU => ⟨h1, ?_⟩, fun hU1 hU2 => ?_, fun hU => ⟨le_trans hU h1, ?_⟩⟩
    · calc mEp ≤ max alpha0 mEu := h2
        _ = alpha0 := max_eq_left hU
    · exact le_antisymm (le_trans h2 (le_of_eq (max_eq_right (le_of_lt hU1)))) h1
    · calc mEp ≤ max alpha0 mEu := h2
        _ = mEu := max_eq_right (le_trans (le_of_lt halpha) hU)
  | cons m T ih =>
    intro mEp mEu bestP bestU hL h1 h2 h3
    have hm0 : b m.1 m.2 = 0 := hL m (List.mem_cons_self m T)
    have hLT : ∀ x ∈ T, b x.1 x.2 = 0 := fun x hx => hL x (List.mem_cons_of_mem m hx)
    have halpha : alpha0 < beta := lt_of_le_of_lt (le_max_left _ _) h3
    rw [maxLoop_cons_eq d b m T _ beta bestP mEp hm0]
    simp only [refMaxLoop]
    generalize hrdef : (MiniMax d (MakeMove b m.1 m.2 AI) (max alpha0 mEp) beta false).2.1 = r
    generalize hvdef : (MiniMaxRef d (MakeMove b m.1 m.2 AI) false).2 = v
    have happrox := hIH (MakeMove b m.1 m.2 AI) (max alpha0 mEp) h3
    rw [hrdef, hvdef] at happrox
    rcases le_or_lt v (max alpha0 mEp) with hv | hvα
    · -- fail-low child: both loops continue
      obtain ⟨hvr, hrα⟩ := happrox.1 hv
      have hmax : max (max alpha0 mEp) r = max alpha0 mEp := max_eq_left hrα
      rw [hmax, if_neg (not_le.mpr h3)]
      have hα2 : max alpha0 mEp = max alpha0 (if mEp < r then r else mEp) := by
        rw [ite_lt_eq_max, ← max_assoc, hmax]
      rw [hα2]
      by_cases hu : mEu < v
      · rw [if_pos hu]
        refine ih (if mEp < r then r else mEp) v _ (some m) hLT ?_ ?_ ?_
        · split_ifs with hp
          · exact hvr
          · exact le_trans hvr (not_lt.mp hp)
        · split_ifs with hp
          · calc r ≤ max alpha0 mEp := hrα
              _ ≤ max alpha0 (max alpha0 mEu) := max_le_max (le_refl alpha0) h2
              _ = max alpha0 mEu := by rw [← max_assoc, max_self]
              _ ≤ max alpha0 v := max_le_max (le_refl alpha0) (le_of_lt hu)
          · calc mEp ≤ max alpha0 mEu := h2
              _ ≤ max alpha0 v := max_le_max (le_refl alpha0) (le_of_lt hu)
        · rw [← hα2]
          exact h3
      · rw [if_neg hu]
        refine ih (if mEp < r then r else mEp) mEu _ bestU hLT ?_ ?_ ?_
        · split_ifs with hp
          · exact le_trans h1 (le_of_lt hp)
          · exact h1
        · split_ifs with hp
          · have hr0 : r ≤ alpha0 := by
              rcases le_max_iff.mp hrα with h | h
              · exact h
              · exact absurd hp (not_lt.mpr h)
            exact le_trans hr0 (le_max_left _ _)
          · exact h2
        · rw [← hα2]
          exact h3
    · rcases lt_or_le v beta with hvβ | hvhi
      · -- in-window child: exact value, both loops update
        have hre : r = v := happrox.2.1 hvα hvβ
        have hrβ : r < beta := by
          rw [hre]
          exact hvβ
        have hp : mEp < r := lt_of_le_of_lt (le_max_right alpha0 mEp) (hre ▸ hvα)
        have hu : mEu < v := lt_of_le_of_lt (le_trans h1 (le_max_right alpha0 mEp)) hvα
        rw [if_neg (not_le.mpr (max_lt h3 hrβ))]
        simp only [if_pos hp, if_pos hu]
        have hα2 : max (max alpha0 mEp) r = max alpha0 r := by
          rw [max_assoc, max_eq_right (le_of_lt hp)]
        rw [hα2]
        refine ih r v (some m) (some m) hLT (le_of_eq hre.symm) ?_ ?_
        · rw [hre]
          exact le_max_right alpha0 v
        · exact max_lt halpha hrβ
      · -- fail-high child: the pruned loop stops here
        obtain ⟨hbr, hrv⟩ := happrox.2.2 hvhi
        have hp : mEp < r :=
          lt_of_le_of_lt (le_max_right alpha0 mEp) (lt_of_lt_of_le h3 hbr)
        have hu : mEu < v :=
          lt_of_le_of_lt (le_trans h1 (le_max_right alpha0 mEp)) (lt_of_lt_of_le h3 hvhi)
        rw [if_pos (le_trans hbr (le_max_right (max alpha0 mEp) r)), if_pos hu]
        simp only [if_pos hp]
        have hvU : v ≤ (refMaxLoop (fun m => (MiniMaxRef d (MakeMove b m.1 m.2 AI) false).2)
            T (some m) v).2 := refMaxLoop_le _ T (some m) v
        refine ⟨fun hU => ?_, fun hU1 hU2 => ?_, fun hU => ⟨hbr, le_trans hrv hvU⟩⟩
        · exact absurd halpha (not_lt.mpr (le_trans (le_trans hvhi hvU) hU))
        · exact absurd hU2 (not_lt.mpr (le_trans hvhi hvU))

theorem minLoop_approx (d : Nat) (b : Board) (alpha beta0 : XInt)
    (hIH : ∀ (b2 : Board) (β2 : XInt), alpha < β2 →
      approx alpha β2 (MiniMax d b2 alpha β2 true).2.1 (MiniMaxRef d b2 true).2) :
    ∀ (L : List Move) (mEp mEu : XInt) (bestP bestU : Option Move),
      (∀ m ∈ L, b m.1 m.2 = 0) →
      mEp ≤ mEu → min beta0 mEu ≤ mEp → alpha < min beta0 mEp →
      approx alpha beta0
        (minLoop (fun b2 a2 β2 => MiniMax d b2 a2 β2 true) b L alpha (min beta0 mEp)
          bestP mEp).2.1
        (refMinLoop (fun m => (MiniMaxRef d (MakeMove b m.1 m.2 HUMAN) true).2) L
          bestU mEu).2 := by
  intro L
  induction L with
  | nil =>
    intro mEp mEu bestP bestU _ h1 h2 h3
    have hbeta : alpha < beta0 := lt_of_lt_of_le h3 (min_le_left _ _)
    refine ⟨fun hU => ⟨?_, le_trans h1 hU⟩, fun hU1 hU2 => ?_, fun hU => ⟨?_, h1⟩⟩
    · calc mEu = min beta0 mEu := (min_eq_right (le_of_lt (lt_of_le_of_lt hU hbeta))).symm
        _ ≤ mEp := h2
    · exact le_antisymm h1 (le_trans (le_of_eq (min_eq_right (le_of_lt hU2)).symm) h2)
    · calc beta0 = min beta0 mEu := (min_eq_left hU).symm
        _ ≤ mEp := h2
  | cons m T ih =>
    intro mEp mEu bestP bestU hL h1 h2 h3
    have hm0 : b m.1 m.2 = 0 := hL m (List.mem_cons_self m T)
    have hLT : ∀ x ∈ T, b x.1 x.2 = 0 := fun x hx => hL x (List.mem_cons_of_mem m hx)
    have hbeta : alpha < beta0 := lt_of_lt_of_le h3 (min_le_left _ _)
    rw [minLoop_cons_eq d b m T alpha _ bestP mEp hm0]
    simp only [refMinLoop]
    generalize hrdef :
      (MiniMax d (MakeMove b m.1 m.2 HUMAN) alpha (min beta0 mEp) true).2.1 = r
    generalize hvdef : (MiniMaxRef d (MakeMove b m.1 m.2 HUMAN) true).2 = v
    have happrox := hIH (MakeMove b m.1 m.2 HUMAN) (min beta0 mEp) h3
    rw [hrdef, hvdef] at happrox
    rcases le_or_lt (min beta0 mEp) v with hv | hvβ
    · -- fail-high child: both loops continue
      obtain ⟨hβr, hrv⟩ := happrox.2.2 hv
      have hmin : min (min beta0 mEp) r = min beta0 mEp := min_eq_left hβr
      rw [hmin, if_neg (not_le.mpr h3)]
      have hβ2 : min beta0 mEp = min beta0 (if r < mEp then r else mEp) := by
        rw [ite_lt_eq_min, ← min_assoc, hmin]
      rw [hβ2]
      by_cases hu : v < mEu
      · rw [if_pos hu]
        refine ih (if r < mEp then r else mEp) v _ (some m) hLT ?_ ?_ ?_
        · split_ifs with hp
          · exact hrv
          · exact le_trans (not_lt.mp hp) hrv
        · split_ifs with hp
          · calc min beta0 v ≤ min beta0 mEu := min_le_min (le_refl beta0) (le_of_lt hu)
              _ = min beta0 (min beta0 mEu) := by rw [← min_assoc, min_self]
              _ ≤ min beta0 mEp := min_le_min (le_refl beta0) h2
              _ ≤ r := hβr
          · calc min beta0 v ≤ min beta0 mEu := min_le_min (le_refl beta0) (le_of_lt hu)
              _ ≤ mEp := h2
        · rw [← hβ2]
          exact h3
      · rw [if_neg hu]
        refine ih (if r < mEp then r else mEp) mEu _ bestU hLT ?_ ?_ ?_
        · split_ifs with hp
          · exact le_trans (le_of_lt hp) h1
          · exact h1
        · split_ifs with hp
          · have hr0 : beta0 ≤ r := by
              rcases min_le_iff.mp hβr with h | h
              · exact h
              · exact absurd hp (not_lt.mpr h)
            exact le_trans (min_le_left _ _) hr0
          · exact h2
        · rw [← hβ2]
          exact h3
    · rcases lt_or_le alpha v with hvα | hvlo
      · -- in-window child: exact value, both loops update
        have hre : r = v := happrox.2.1 hvα hvβ
        have hrα : alpha < r := by
          rw [hre]
          exact hvα
        have hp : r < mEp := lt_of_lt_of_le (hre ▸ hvβ) (min_le_right beta0 mEp)
        have hu : v < mEu := lt_of_lt_of_le hvβ (le_trans (min_le_right beta0 mEp) h1)
        rw [if_neg (not_le.mpr (lt_min h3 hrα))]
        simp only [if_pos hp, if_pos hu]
        have hβ2 : min (min beta0 mEp) r = min beta0 r := by
          rw [min_assoc, min_eq_right (le_of_lt hp)]
        rw [hβ2]
        refine ih r v (some m) (some m) hLT (le_of_eq hre) ?_ ?_
        · rw [hre]
          exact min_le_right beta0 v
        · exact lt_min hbeta hrα
      · -- fail-low child: the pruned loop stops here
        obtain ⟨hvr, hrα⟩ := happrox.1 hvlo
        have hp : r < mEp :=
          lt_of_le_of_lt hrα (lt_of_lt_of_le h3 (min_le_right beta0 mEp))
        have hu : v < mEu :=
          lt_of_le_of_lt hvlo (lt_of_lt_of_le h3 (le_trans (min_le_right beta0 mEp) h1))
        rw [if_pos (min_le_iff.mpr (Or.inr hrα)), if_pos hu]
        simp only [if_pos hp]
        have hUv : (refMinLoop (fun m => (MiniMaxRef d (MakeMove b m.1 m.2 HUMAN) true).2)
            T (some m) v).2 ≤ v := refMinLoop_le _ T (some m) v
        refine ⟨fun hU => ⟨le_trans hUv hvr, hrα⟩, fun hU1 hU2 => ?_, fun hU => ?_⟩
        · exact absurd hU1 (not_lt.mpr (le_trans hUv hvlo))
        · exact absurd hbeta (not_lt.mpr (le_trans hU (le_trans hUv (le_trans hvr hrα))))

theorem MiniMax_approx :
    ∀ (d : Nat) (b : Board) (alpha beta : XInt) (mx : Bool), alpha < beta →
      approx alpha beta (MiniMax d b alpha beta mx).2.1 (MiniMaxRef d b mx).2 := by
  intro d
  induction d with
  | zero =>
    intro b alpha beta mx _
    exact approx_self alpha beta (XInt.fin (Board_Evaluate b AI))
  | succ n ih =>
    intro b alpha beta mx hab
    rw [MiniMax, MiniMaxRef]
    by_cases hw : (WinnerCheck b HUMAN || WinnerCheck b AI) = true
    · rw [if_pos hw, if_pos hw]
      exact approx_self alpha beta (XInt.fin (Board_Evaluate b AI))
    · rw [if_neg hw, if_neg hw]
      cases mx with
      | true =>
        rw [if_pos rfl, if_pos rfl]
        have h := maxLoop_approx n b alpha beta
          (fun b2 a2 ha2 => ih b2 a2 beta false ha2)
          (ValidMoveFinder b 2) XInt.negInf XInt.negInf none none
          (fun m hm => ValidMoveFinder_cell_empty hm) (le_refl _)
          (XInt.negInf_le _) (by rw [max_eq_left (XInt.negInf_le alpha)]; exact hab)
        rw [max_eq_left (XInt.negInf_le alpha)] at h
        exact h
      | false =>
        rw [if_neg (by simp), if_neg (by simp)]
        have h := minLoop_approx n b alpha beta
          (fun b2 β2 hβ2 => ih b2 alpha β2 true hβ2)
          (ValidMoveFinder b 2) XInt.posInf XInt.posInf none none
          (fun m hm => ValidMoveFinder_cell_empty hm) (le_refl _)
          (XInt.le_posInf _) (by rw [min_eq_left (XInt.le_posInf beta)]; exact hab)
        rw [min_eq_left (XInt.le_posInf beta)] at h
        exact h

theorem maxLoop_exact (d : Nat) (b : Board)
    (hIH : ∀ (b2 : Board) (a2 : XInt), a2 < XInt.posInf →
      approx a2 XInt.posInf (MiniMax d b2 a2 XInt.posInf false).2.1
        (MiniMaxRef d b2 false).2) :
    ∀ (L : List Move) (mE : XInt) (best : Option Move),
      (∀ m ∈ L, b m.1 m.2 = 0) → mE ≠ XInt.posInf →
      (maxLoop (fun b2 a2 β2 => MiniMax d b2 a2 β2 false) b L mE XInt.posInf best mE).1
          = (refMaxLoop (fun m => (MiniMaxRef d (MakeMove b m.1 m.2 AI) false).2) L
              best mE).1
        ∧ (maxLoop (fun b2 a2 β2 => MiniMax d b2 a2 β2 false) b L mE XInt.posInf
              best mE).2.1
          = (refMaxLoop (fun m => (MiniMaxRef d (MakeMove b m.1 m.2 AI) false).2) L
              best mE).2 := by
  intro L
  induction L with
  | nil =>
    intro mE best _ _
    exact ⟨rfl, rfl⟩
  | cons m T ih =>
    intro mE best hL hne
    have hm0 : b m.1 m.2 = 0 := hL m (List.mem_cons_self m T)
    have hLT : ∀ x ∈ T, b x.1 x.2 = 0 := fun x hx => hL x (List.mem_cons_of_mem m hx)
    rw [maxLoop_cons_eq d b m T mE XInt.posInf best mE hm0]
    simp only [refMaxLoop]
    generalize hrdef : (MiniMax d (MakeMove b m.1 m.2 AI) mE XInt.posInf false).2.1 = r
    generalize hvdef : (MiniMaxRef d (MakeMove b m.1 m.2 AI) false).2 = v
    have happrox := hIH (MakeMove b m.1 m.2 AI) mE (XInt.lt_posInf_of_ne hne)
    rw [hrdef, hvdef] at happrox
    rcases le_or_lt v mE with hv | hv
    · obtain ⟨hvr, hrm⟩ := happrox.1 hv
      rw [if_neg (not_lt.mpr hv)]
      simp only [if_neg (not_lt.mpr hrm)]
      rw [max_eq_left hrm,
        if_neg fun hle => hne (le_antisymm (XInt.le_posInf mE) hle)]
      exact ih mE best hLT hne
    · rcases eq_or_ne v XInt.posInf with hvtop | hvne
      · obtain ⟨hβr, _⟩ := happrox.2.2 (by rw [hvtop])
        have hr : r = XInt.posInf := le_antisymm (XInt.le_posInf r) hβr
        have hp : mE < r := by
          rw [hr]
          exact XInt.lt_posInf_of_ne hne
        rw [if_pos hv]
        simp only [if_pos hp]
        rw [show max mE r = XInt.posInf by rw [hr]; exact max_eq_right (XInt.le_posInf mE),
          if_pos (le_refl XInt.posInf), hvtop, refMaxLoop_posInf]
        exact ⟨rfl, by rw [hr]⟩
      · have hre : r = v := happrox.2.1 hv (XInt.lt_posInf_of_ne hvne)
        have hp : mE < r := by
          rw [hre]
          exact hv
        rw [if_pos hv]
        simp only [if_pos hp]
        rw [max_eq_right (le_of_lt hp)]
        rw [if_neg fun hle => hvne (hre ▸ le_antisymm (XInt.le_posInf r) hle)]
        rw [hre]
        exact ih v (some m) hLT hvne

theorem minLoop_exact (d : Nat) (b : Board)
    (hIH : ∀ (b2 : Board) (β2 : XInt), XInt.negInf < β2 →
      approx XInt.negInf β2 (MiniMax d b2 XInt.negInf β2 true).2.1
        (MiniMaxRef d b2 true).2) :
    ∀ (L : List Move) (mE : XInt) (best : Option Move),
      (∀ m ∈ L, b m.1 m.2 = 0) → mE ≠ XInt.negInf →
      (minLoop (fun b2 a2 β2 => MiniMax d b2 a2 β2 true) b L XInt.negInf mE best mE).1
          = (refMinLoop (fun m => (MiniMaxRef d (MakeMove b m.1 m.2 HUMAN) true).2) L
              best mE).1
        ∧ (minLoop (fun b2 a2 β2 => MiniMax d b2 a2 β2 true) b L XInt.negInf mE
              best mE).2.1
          = (refMinLoop (fun m => (MiniMaxRef d (MakeMove b m.1 m.2 HUMAN) true).2) L
              best mE).2 := by
  intro L
  induction L with
  | nil =>
    intro mE best _ _
    exact ⟨rfl, rfl⟩
  | cons m T ih =>
    intro mE best hL hne
    have hm0 : b m.1 m.2 = 0 := hL m (List.mem_cons_self m T)
    have hLT : ∀ x ∈ T, b x.1 x.2 = 0 := fun x hx => hL x (List.mem_cons_of_mem m hx)
    rw [minLoop_cons_eq d b m T XInt.negInf mE best mE hm0]
    simp only [refMinLoop]
    generalize hrdef : (MiniMax d (MakeMove b m.1 m.2 HUMAN) XInt.negInf mE true).2.1 = r
    generalize hvdef : (MiniMaxRef d (MakeMove b m.1 m.2 HUMAN) true).2 = v
    have happrox := hIH (MakeMove b m.1 m.2 HUMAN) mE (XInt.negInf_lt_of_ne hne)
    rw [hrdef, hvdef] at happrox
    rcases le_or_lt mE v with hv | hv
    · obtain ⟨hβr, hrv⟩ := happrox.2.2 hv
      rw [if_neg (not_lt.mpr hv)]
      simp only [if_neg (not_lt.mpr hβr)]
      rw [min_eq_left hβr,
        if_neg fun hle => hne (le_antisymm hle (XInt.negInf_le mE))]
      exact ih mE best hLT hne
    · rcases eq_or_ne v XInt.negInf with hvbot | hvne
      · obtain ⟨_, hrβ⟩ := happrox.1 (by rw [hvbot])
        have hr : r = XInt.negInf := le_antisymm hrβ (XInt.negInf_le r)
        have hp : r < mE := by
          rw [hr]
          exact XInt.negInf_lt_of_ne hne
        rw [if_pos hv]
        simp only [if_pos hp]
        rw [show min mE r = XInt.negInf by rw [hr]; exact min_eq_right (XInt.negInf_le mE),
          if_pos (le_refl XInt.negInf), hvbot, refMinLoop_negInf]
        exact ⟨rfl, by rw [hr]⟩
      · have hre : r = v := happrox.2.1 (XInt.negInf_lt_of_ne hvne) hv
        have hp : r < mE := by
          rw [hre]
          exact hv
        rw [if_pos hv]
        simp only [if_pos hp]
        rw [min_eq_right (le_of_lt hp)]
        rw [if_neg fun hle => hvne (hre ▸ le_antisymm hle (XInt.negInf_le r))]
        rw [hre]
        exact ih v (some m) hLT hvne

theorem MiniMax_pruning_free (d : Nat) (b : Board) (maximizing : Bool) :
    (MiniMax d b XInt.negInf XInt.posInf maximizing).1 = (MiniMaxRef d b maximizing).1
      ∧ (MiniMax d b XInt.negInf XInt.posInf maximizing).2.1
          = (MiniMaxRef d b maximizing).2 := by
  cases d with
  | zero => exact ⟨rfl, rfl⟩
  | succ n =>
    rw [MiniMax, MiniMaxRef]
    by_cases hw : (WinnerCheck b HUMAN || WinnerCheck b AI) = true
    · rw [if_pos hw, if_pos hw]
      exact ⟨rfl, rfl⟩
    · rw [if_neg hw, if_neg hw]
      cases maximizing with
      | true =>
        rw [if_pos rfl, if_pos rfl]
        exact maxLoop_exact n b
          (fun b2 a2 ha2 => MiniMax_approx n b2 a2 XInt.posInf false ha2)
          (ValidMoveFinder b 2) XInt.negInf none
          (fun m hm => ValidMoveFinder_cell_empty hm) (by decide)
      | false =>
        rw [if_neg (by simp), if_neg (by simp)]
        exact minLoop_exact n b
          (fun b2 β2 hβ2 => MiniMax_approx n b2 XInt.negInf β2 true hβ2)
          (ValidMoveFinder b 2) XInt.posInf none
          (fun m hm => ValidMoveFinder_cell_empty hm) (by decide)

/-- C3. With the full window (alpha = -infinity, beta = +infinity), the
pruned search returns the same move — and the same score — as the unpruned
exhaustive minimax over the same move enumeration with the same
first-strictly-greater tie-breaking; pruning never changes the chosen move. -/
theorem c3_pruning_preserves_result (d : Nat) (b : Board) (maximizing : Bool) :
    (MiniMax d b XInt.negInf XInt.posInf maximizing).1 = (MiniMaxRef d b maximizing).1
      ∧ (MiniMax d b XInt.negInf XInt.posInf maximizing).2.1
          = (MiniMaxRef d b maximizing).2 :=
  MiniMax_pruning_free d b maximizing

end Gomoku
